import Mathlib

/-!
# IRC line parser (`parser.go`)

A shallow embedding of the message parser of package `irc`: `ParseIdentity`,
`ParseEvent`, and the accessors and copy operations of `Identity` and `Event`.

Go strings are modelled as lists of Unicode code points (`List Char`), i.e. as
well-formed UTF-8 text. The bytes the parser inspects (`':'`, `' '`, `'@'`,
`'!'`, `'#'`, `'&'`) are ASCII, so byte indexing and slicing at those positions
coincide with indexing and slicing of code points.
-/

namespace Irc

/-- A Go `string`. -/
abbrev Str := List Char

/-! ## Library functions used by the parser -/

/-- Go's `unicode.IsSpace`: the code points with the Unicode White_Space
property. -/
def isSpace (c : Char) : Bool :=
  let n := c.toNat
  (9 ≤ n && n ≤ 13) || n == 0x20 || n == 0x85 || n == 0xA0 || n == 0x1680 ||
    (0x2000 ≤ n && n ≤ 0x200A) || n == 0x2028 || n == 0x2029 || n == 0x202F ||
    n == 0x205F || n == 0x3000

/-- Go's `strings.TrimSpace`: remove leading and trailing white space. -/
def TrimSpace (s : Str) : Str :=
  (s.dropWhile isSpace).rdropWhile isSpace

/-- Go's `strings.Cut` for a one-character separator: the text before and
after the first occurrence of `sep`, or `none` when `sep` does not occur. -/
def Cut (sep : Char) : Str → Option (Str × Str)
  | [] => none
  | c :: cs =>
    if c = sep then some ([], cs)
    else match Cut sep cs with
      | none => none
      | some (a, b) => some (c :: a, b)

/-- Go's `strings.SplitN(s, sep, n)` for a one-character separator and
`n ≥ 0`: at most `n` pieces, the last one being the unsplit remainder. -/
def SplitN (sep : Char) : Nat → Str → List Str
  | 0, _ => []
  | 1, s => [s]
  | n + 2, s =>
    match Cut sep s with
    | none => [s]
    | some (a, b) => a :: SplitN sep (n + 1) b

/-! ## Data model -/

/-- An identity represents the prefix of a message. -/
structure Identity where
  Raw : Str
  Nick : Str
  User : Str
  Host : Str
deriving DecidableEq, Repr

/-- One parsed protocol line. `Identity` is a pointer in the source and may be
nil, hence the `Option`. -/
structure Event where
  Raw : Str
  Identity : Option Irc.Identity
  Prefix : Str
  Command : Str
  Args : List Str
deriving DecidableEq, Repr

/-! ## `ParseIdentity` -/

/-- `ParseIdentity` of `parser.go`. -/
def ParseIdentity (line : Str) : Identity :=
  let id : Identity := { Raw := line, Nick := [], User := [], Host := line }
  match SplitN '@' 2 id.Host with
  | [uh0, uh1] =>
    let id := { id with User := uh0, Host := uh1 }
    match SplitN '!' 2 id.User with
    | [nu0, nu1] => { id with Nick := nu0, User := nu1 }
    | _ => id
  | _ => id

/-- `Identity.Copy` of `parser.go`: a fresh instance with the same fields. -/
def Identity.Copy (i : Identity) : Identity :=
  { Raw := i.Raw, Nick := i.Nick, User := i.User, Host := i.Host }

/-! ## `ParseEvent` -/

/-- The argument loop of `ParseEvent` (lines 90-100), on the state
`(c.Args, line)`. The first argument bounds the number of iterations; every
iteration that continues removes at least the separating space from `line`, so
`line.length + 1` iterations always suffice (see `argLoop_fuel`). -/
def argLoop : Nat → List Str → Str → List Str × Str
  | 0, args, line => (args, line)
  | fuel + 1, args, line =>
    match line with
    | [] => (args, line)
    | c :: _ =>
      if c = ':' then (args, line)
      else
        match SplitN ' ' 2 line with
        | [s0, s1] => argLoop fuel (args ++ [s0]) s1
        | split => (args ++ split, line)

/-- The argument loop run to completion. -/
def runLoop (args : List Str) (line : Str) : List Str × Str :=
  argLoop (line.length + 1) args line

/-- Lines 80-87 of `ParseEvent`: strip an optional `:prefix ` from the trimmed
line. The result is `(c.Prefix, line)`, or `none` where the source returns
nil. -/
def splitPrefix (line : Str) : Option (Str × Str) :=
  match line with
  | ':' :: _ =>
    match SplitN ' ' 2 line with
    | [s0, s1] => some (s0.drop 1, s1)
    | _ => none
  | _ => some ([], line)

/-- Lines 89-104 of `ParseEvent`: the argument loop followed by the optional
trailing argument. The result is `c.Args` before the command is taken off. -/
def parseArgs (line : Str) : List Str :=
  match runLoop [] line with
  | (args, ':' :: rest) => args ++ [rest]
  | (args, _) => args

/-- `ParseEvent` of `parser.go`; `none` is the nil result. -/
def ParseEvent (line : Str) : Option Event :=
  let line := TrimSpace line
  if line.length ≤ 0 then none
  else
    match splitPrefix line with
    | none => none
    | some (pfx, rest) =>
      match parseArgs rest with
      | [] => none
      | cmd :: args =>
        some { Raw := line, Identity := some (ParseIdentity pfx), Prefix := pfx,
               Command := cmd, Args := args }

/-! ## Accessors and copy -/

/-- `Event.Copy` of `parser.go`. Dereferencing a nil `Identity` panics, which
is the `none` result. -/
def Event.Copy (e : Event) : Option Event :=
  match e.Identity with
  | none => none
  | some i =>
    some { Raw := e.Raw, Identity := some i.Copy, Prefix := e.Prefix,
           Command := e.Command, Args := [] ++ e.Args }

/-- `Event.Trailing` of `parser.go`, with the index expression checked: `none`
is an out-of-range panic. -/
def Event.Trailing (e : Event) : Option Str :=
  if e.Args.length < 1 then some []
  else e.Args[e.Args.length - 1]?

/-- `Event.FromChannel` of `parser.go`, with both index expressions checked:
`none` is an out-of-range panic. The guard short-circuits as `||` does. -/
def Event.FromChannel (e : Event) : Option Bool :=
  if e.Args.length < 1 then some false
  else
    match e.Args[0]? with
    | none => none
    | some a0 =>
      if a0.length < 1 then some false
      else
        match a0[0]? with
        | none => none
        | some ch => if ch = '#' ∨ ch = '&' then some true else some false

/-- `Event.Message` of `parser.go`, with the index expression checked. -/
def Event.Message (e : Event) : Option Str :=
  if e.Args.length = 0 then some []
  else e.Args[e.Args.length - 1]?

/-- `ParseIdentity` with every index expression (`uh[0]`, `uh[1]`, `nu[0]`,
`nu[1]`) checked: `none` is an out-of-range panic. -/
def ParseIdentityChecked (line : Str) : Option Identity :=
  let id : Identity := { Raw := line, Nick := [], User := [], Host := line }
  let uh := SplitN '@' 2 id.Host
  if uh.length ≠ 2 then some id
  else
    match uh[0]?, uh[1]? with
    | some uh0, some uh1 =>
      let id := { id with User := uh0, Host := uh1 }
      let nu := SplitN '!' 2 id.User
      if nu.length ≠ 2 then some id
      else
        match nu[0]?, nu[1]? with
        | some nu0, some nu1 => some { id with Nick := nu0, User := nu1 }
        | _, _ => none
    | _, _ => none

/-! ## Storage model for the copy operations

The definitions above treat events as values. To speak about which storage a
copy shares with its original, the definitions below place the `Identity`
instances and the backing arrays of the `Args` slices in a store and let the
event hold references to them. Go strings are immutable and stay values. -/

/-- A Go slice of strings: its backing array (`none` for the nil slice), the
offset of its first element in that array, its length and its capacity. -/
structure Slice where
  arr : Option Nat
  off : Nat
  len : Nat
  cap : Nat
deriving DecidableEq, Repr

/-- The allocated objects: the backing arrays of string slices and the
`Identity` instances, each addressed by its position. Allocation adds at the
end. -/
structure Store where
  arrays : List (List Str)
  idents : List Irc.Identity
deriving DecidableEq, Repr

/-- An `Event` as it lies in memory: the strings by value, the `Identity`
pointer (`none` is nil) and the `Args` slice header. -/
structure EventObj where
  Raw : Str
  Identity : Option Nat
  Prefix : Str
  Command : Str
  Args : Slice
deriving DecidableEq, Repr

/-- The elements `s[0], ..., s[len-1]` of a slice. -/
def Store.elems (st : Store) (s : Slice) : List Str :=
  match s.arr with
  | none => []
  | some a => ((st.arrays.getD a []).drop s.off).take s.len

/-- Go's `make([]string, len, cap)`: a fresh array of `cap` empty strings. -/
def Store.make (st : Store) (len cap : Nat) : Store × Slice :=
  ({ st with arrays := st.arrays ++ [List.replicate cap []] },
   { arr := some st.arrays.length, off := 0, len := len, cap := cap })

/-- The array `a` with `xs` stored from position `pos` on. -/
def writeAt (a : List Str) (pos : Nat) (xs : List Str) : List Str :=
  a.take pos ++ xs ++ a.drop (pos + xs.length)

/-- Go's `append(s, xs...)`: when the capacity suffices the elements are stored
in the backing array of `s` behind its last element; otherwise a fresh array
receives the old elements and `xs`. The growth policy is left open: the fresh
array has `spare` unused places. -/
def Store.append (st : Store) (s : Slice) (xs : List Str) (spare : Nat) : Store × Slice :=
  if s.len + xs.length ≤ s.cap then
    match s.arr with
    | none => (st, s)
    | some a =>
      ({ st with arrays :=
          st.arrays.set a (writeAt (st.arrays.getD a []) (s.off + s.len) xs) },
       { s with len := s.len + xs.length })
  else
    ({ st with arrays := st.arrays ++ [st.elems s ++ xs ++ List.replicate spare []] },
     { arr := some st.arrays.length, off := 0, len := s.len + xs.length,
       cap := s.len + xs.length + spare })

/-- The assignment `s[i] = x`; `none` is the out-of-range panic. -/
def Store.setElem (st : Store) (s : Slice) (i : Nat) (x : Str) : Option Store :=
  if i < s.len then
    match s.arr with
    | none => none
    | some a =>
      some { st with arrays :=
        st.arrays.set a ((st.arrays.getD a []).set (s.off + i) x) }
  else none

/-- An assignment to fields of the instance behind the pointer `p`, leaving the
instance with the value `v`; `none` is the nil dereference. -/
def Store.setIdentity (st : Store) (p : Option Nat) (v : Irc.Identity) : Option Store :=
  match p with
  | none => none
  | some q =>
    if q < st.idents.length then some { st with idents := st.idents.set q v }
    else none

/-- `Identity.Copy` of `parser.go` on the store: a fresh instance that receives
the value behind `p`; `none` is the nil dereference. -/
def Store.IdentityCopy (st : Store) (p : Option Nat) : Option (Store × Nat) :=
  match p with
  | none => none
  | some q =>
    match st.idents[q]? with
    | none => none
    | some i => some ({ st with idents := st.idents ++ [i.Copy] }, st.idents.length)

/-- `Event.Copy` of `parser.go` on the store: the fields are copied, the
Identity is copied to a fresh instance, and Args is appended to a fresh slice
of capacity `len(e.Args)`. -/
def Store.EventCopy (st : Store) (e : EventObj) (spare : Nat) : Option (Store × EventObj) :=
  match st.IdentityCopy e.Identity with
  | none => none
  | some (st1, q) =>
    let made := st1.make 0 e.Args.len
    let appended := made.1.append made.2 (made.1.elems e.Args) spare
    some (appended.1,
      { Raw := e.Raw, Identity := some q, Prefix := e.Prefix, Command := e.Command,
        Args := appended.2 })

/-- The backing array of the slice, if it has one, is allocated in the
store. -/
def Store.Holds (st : Store) (s : Slice) : Prop :=
  ∀ a, s.arr = some a → a < st.arrays.length

instance (st : Store) (s : Slice) : Decidable (st.Holds s) :=
  match h : s.arr with
  | none => isTrue (fun a ha => by rw [h] at ha; cases ha)
  | some b =>
    if hb : b < st.arrays.length then
      isTrue (fun a ha => by rw [h] at ha; cases ha; exact hb)
    else isFalse (fun hall => hb (hall b h))

/-- A store with the pieces of `":nick!user@host PRIVMSG #chan :hello there"`. -/
def sampleStore : Store :=
  { arrays := [["PRIVMSG".toList, "#chan".toList, "hello there".toList]],
    idents := [ParseIdentity "nick!user@host".toList] }

/-- The event parsed from that line, in `sampleStore`: Args is the slice
`[1:]` of the array of all pieces. -/
def sampleEvent : EventObj :=
  { Raw := ":nick!user@host PRIVMSG #chan :hello there".toList,
    Identity := some 0,
    Prefix := "nick!user@host".toList,
    Command := "PRIVMSG".toList,
    Args := { arr := some 0, off := 1, len := 2, cap := 2 } }

/-! ## Vocabulary of the statements -/

/-- A token that the argument loop consumes whole: it holds no space and does
not begin with the trailing sentinel. It may be empty. -/
def IsTok (t : Str) : Prop := ' ' ∉ t ∧ t.head? ≠ some ':'

/-- The tokens of `toks`, each followed by one space, in front of `rest`. -/
def joinToks (toks : List Str) (rest : Str) : Str :=
  toks.foldr (fun t acc => t ++ ' ' :: acc) rest

/-- The entries of `ms`, each preceded by one space. -/
def spaced (ms : List Str) : Str :=
  ms.foldr (fun m acc => ' ' :: m ++ acc) []

/-- The canonical wire form of an event, after the grammar of the
specification: `":" Prefix " "` when the Prefix is non-empty, the Command, each
entry of Args except the last preceded by one space, and `" :"` with the last
entry when Args is non-empty. -/
def Event.wire (m : Event) : Str :=
  (if m.Prefix ≠ [] then ':' :: m.Prefix ++ [' '] else []) ++ m.Command ++
    spaced m.Args.dropLast ++
    (match m.Args.getLast? with
      | some l => ' ' :: ':' :: l
      | none => [])

/-- The text holds no white space at all. -/
def NoSpace (s : Str) : Prop := ∀ c ∈ s, isSpace c = false

/-- The text does not begin with white space (it may be empty). -/
def NoSpaceStart (s : Str) : Prop := ∀ c, s.head? = some c → isSpace c = false

/-- The text does not end in white space (it may be empty). -/
def NoSpaceEnd (s : Str) : Prop := ∀ c, s.getLast? = some c → isSpace c = false

instance (s : Str) : Decidable (NoSpace s) :=
  inferInstanceAs (Decidable (∀ c ∈ s, isSpace c = false))

instance (s : Str) : Decidable (NoSpaceStart s) :=
  inferInstanceAs (Decidable (∀ c, c ∈ s.head? → isSpace c = false))

instance (s : Str) : Decidable (NoSpaceEnd s) :=
  inferInstanceAs (Decidable (∀ c, c ∈ s.getLast? → isSpace c = false))

instance (t : Str) : Decidable (IsTok t) :=
  inferInstanceAs (Decidable (' ' ∉ t ∧ t.head? ≠ some ':'))

/-! ## Basic facts about the library functions -/

theorem Cut_eq_none {sep : Char} {s : Str} : Cut sep s = none ↔ sep ∉ s := by
  induction s with
  | nil => simp [Cut]
  | cons c cs ih =>
    by_cases h : c = sep
    · simp [Cut, h]
    · have h2 : ¬ sep = c := fun e => h e.symm
      cases hc : Cut sep cs with
      | none => simp [Cut, h, h2, hc, ih.mp hc]
      | some p =>
        have : sep ∈ cs := by
          by_contra hn
          rw [ih.mpr hn] at hc
          cases hc
        simp [Cut, h, hc, this]

theorem Cut_append {sep : Char} {a : Str} (b : Str) (h : sep ∉ a) :
    Cut sep (a ++ sep :: b) = some (a, b) := by
  induction a with
  | nil => simp [Cut]
  | cons c cs ih =>
    have hc : ¬ c = sep := fun e => h (by simp [e])
    have hcs : sep ∉ cs := fun e => h (by simp [e])
    simp [Cut, hc, ih hcs]

theorem Cut_eq_some {sep : Char} {s a b : Str} (h : Cut sep s = some (a, b)) :
    s = a ++ sep :: b ∧ sep ∉ a := by
  induction s generalizing a with
  | nil => simp [Cut] at h
  | cons c cs ih =>
    by_cases hc : c = sep
    · simp [Cut, hc] at h
      obtain ⟨rfl, rfl⟩ := h
      simp [hc]
    · cases hcut : Cut sep cs with
      | none => simp [Cut, hc, hcut] at h
      | some p =>
        obtain ⟨a1, b1⟩ := p
        simp [Cut, hc, hcut] at h
        obtain ⟨rfl, rfl⟩ := h
        obtain ⟨h1, h2⟩ := ih hcut
        refine ⟨by simp [h1], ?_⟩
        intro hm
        rcases List.mem_cons.mp hm with e | e
        · exact hc e.symm
        · exact h2 e

theorem SplitN_two (sep : Char) (s : Str) :
    SplitN sep 2 s = match Cut sep s with
      | none => [s]
      | some (a, b) => [a, b] := by
  cases h : Cut sep s with
  | none => simp [SplitN, h]
  | some p => obtain ⟨a, b⟩ := p; simp [SplitN, h]

theorem SplitN_two_of_not_mem {sep : Char} {s : Str} (h : sep ∉ s) :
    SplitN sep 2 s = [s] := by
  rw [SplitN_two, Cut_eq_none.mpr h]

theorem SplitN_two_append {sep : Char} {a : Str} (b : Str) (h : sep ∉ a) :
    SplitN sep 2 (a ++ sep :: b) = [a, b] := by
  rw [SplitN_two, Cut_append b h]

theorem TrimSpace_noSpaceStart (s : Str) : NoSpaceStart (TrimSpace s) := by
  intro c hc
  have hp : TrimSpace s <+: s.dropWhile isSpace := List.rdropWhile_prefix _ _
  obtain ⟨t, ht⟩ := hp
  have h := List.head?_dropWhile_not isSpace s
  cases hT : TrimSpace s with
  | nil => simp [hT] at hc
  | cons x xs =>
    rw [hT] at hc ht
    rw [← ht] at h
    simp at hc h
    rw [← hc]
    exact h

theorem TrimSpace_noSpaceEnd (s : Str) : NoSpaceEnd (TrimSpace s) := by
  intro c hc
  have hne : (s.dropWhile isSpace).rdropWhile isSpace ≠ [] := by
    intro e
    simp [TrimSpace, e] at hc
  have h := List.rdropWhile_last_not isSpace (s.dropWhile isSpace) hne
  have h2 : (TrimSpace s).getLast? = some (((s.dropWhile isSpace).rdropWhile isSpace).getLast hne) :=
    List.getLast?_eq_getLast _ hne
  rw [hc] at h2
  cases h2
  simpa using h

theorem TrimSpace_eq_self {s : Str} (h1 : NoSpaceStart s) (h2 : NoSpaceEnd s) :
    TrimSpace s = s := by
  have hd : s.dropWhile isSpace = s := by
    cases s with
    | nil => rfl
    | cons c r => simp [List.dropWhile, h1 c rfl]
  rw [TrimSpace, hd, List.rdropWhile_eq_self_iff]
  intro hl
  have := h2 _ (List.getLast?_eq_getLast _ hl)
  simp [this]

theorem isSpace_space : isSpace ' ' = true := by decide

theorem not_isSpace_colon : isSpace ':' = false := by decide

theorem exists_joinToks_aux (n : Nat) : ∀ line : Str, line.length ≤ n → line ≠ [] →
    line.getLast? ≠ some ' ' →
    ∃ toks last, (∀ t ∈ toks, IsTok t) ∧
      (line = joinToks toks (':' :: last) ∨
        (line = joinToks toks last ∧ last ≠ [] ∧ IsTok last)) := by
  induction n with
  | zero =>
    intro line hn hne
    cases line with
    | nil => exact absurd rfl hne
    | cons c r => simp at hn
  | succ n ih =>
    intro line hn hne hlast
    by_cases hcol : line.head? = some ':'
    · cases line with
      | nil => exact absurd rfl hne
      | cons c r =>
        simp at hcol
        subst hcol
        exact ⟨[], r, by simp, Or.inl rfl⟩
    · by_cases hsp : ' ' ∈ line
      · cases hc : Cut ' ' line with
        | none => exact absurd hsp (Cut_eq_none.mp hc)
        | some p =>
          obtain ⟨a, b⟩ := p
          obtain ⟨hab, ha⟩ := Cut_eq_some hc
          have hb : b ≠ [] := by
            intro e
            apply hlast
            rw [hab, e]
            simp
          have hbl : b.getLast? ≠ some ' ' := by
            intro e
            apply hlast
            rw [hab, List.getLast?_append_cons]
            cases b with
            | nil => exact absurd rfl hb
            | cons x xs => simpa using e
          have hlen : b.length ≤ n := by
            have := congrArg List.length hab
            simp only [List.length_append, List.length_cons] at this
            omega
          have hatok : IsTok a := by
            refine ⟨ha, ?_⟩
            intro e
            apply hcol
            rw [hab]
            cases a with
            | nil => simp at e
            | cons x xs => simpa using e
          obtain ⟨toks, last, htoks, hshape⟩ := ih b hlen hb hbl
          refine ⟨a :: toks, last, ?_, ?_⟩
          · intro t ht
            rcases List.mem_cons.mp ht with e | e
            · rw [e]; exact hatok
            · exact htoks t e
          · rcases hshape with h | ⟨h, h2, h3⟩
            · left
              rw [hab, h]
              rfl
            · right
              refine ⟨?_, h2, h3⟩
              rw [hab, h]
              rfl
      · exact ⟨[], line, by simp, Or.inr ⟨rfl, hne, hsp, hcol⟩⟩

/-- A non-empty text that does not end in a space character splits in one of
the two wire shapes: tokens then a `:`-introduced trailing text, or tokens then
a last plain token. -/
theorem exists_joinToks (line : Str) (hne : line ≠ []) (hlast : line.getLast? ≠ some ' ') :
    ∃ toks last, (∀ t ∈ toks, IsTok t) ∧
      (line = joinToks toks (':' :: last) ∨
        (line = joinToks toks last ∧ last ≠ [] ∧ IsTok last)) :=
  exists_joinToks_aux line.length line (Nat.le_refl _) hne hlast

/-! ## The argument loop -/

theorem argLoop_fuel (f1 f2 : Nat) (args : List Str) (line : Str)
    (h1 : line.length < f1) (h2 : line.length < f2) :
    argLoop f1 args line = argLoop f2 args line := by
  induction f1 generalizing f2 args line with
  | zero => omega
  | succ f1 ih =>
    cases f2 with
    | zero => omega
    | succ f2 =>
      cases line with
      | nil => rfl
      | cons c r =>
        simp only [argLoop]
        split
        · rfl
        · rw [SplitN_two]
          cases hc : Cut ' ' (c :: r) with
          | none => rfl
          | some p =>
            obtain ⟨a, b⟩ := p
            have hl := congrArg List.length (Cut_eq_some hc).1
            simp at hl h1 h2
            exact ih f2 _ b (by omega) (by omega)

theorem runLoop_nil (args : List Str) : runLoop args [] = (args, []) := rfl

theorem runLoop_colon (args : List Str) (r : Str) :
    runLoop args (':' :: r) = (args, ':' :: r) := by
  simp [runLoop, argLoop]

theorem runLoop_last (args : List Str) {line : Str} (hne : line ≠ [])
    (hc : line.head? ≠ some ':') (hs : ' ' ∉ line) :
    runLoop args line = (args ++ [line], line) := by
  cases line with
  | nil => exact absurd rfl hne
  | cons c r =>
    have hc2 : ¬ c = ':' := fun e => hc (by simp [e])
    simp only [runLoop, argLoop, hc2, if_false, SplitN_two_of_not_mem hs]

theorem argLoop_succ_cons (f : Nat) (args : List Str) (c : Char) (r : Str)
    (hc : ¬ c = ':') :
    argLoop (f + 1) args (c :: r) =
      match SplitN ' ' 2 (c :: r) with
      | [s0, s1] => argLoop f (args ++ [s0]) s1
      | split => (args ++ split, c :: r) := by
  simp only [argLoop, hc, if_false]

theorem runLoop_cut (args : List Str) {a : Str} (b : Str) (ha : IsTok a) :
    runLoop args (a ++ ' ' :: b) = runLoop (args ++ [a]) b := by
  have hsplit := SplitN_two_append b ha.1
  cases hl : a ++ ' ' :: b with
  | nil => simp at hl
  | cons c r =>
    have hc2 : ¬ c = ':' := by
      intro e
      subst e
      cases a with
      | nil => simp at hl
      | cons x xs =>
        simp at hl
        exact ha.2 (by simp [hl.1])
    rw [hl] at hsplit
    rw [runLoop, argLoop_succ_cons _ _ _ _ hc2, hsplit]
    simp only [runLoop]
    apply argLoop_fuel
    · have := congrArg List.length hl
      simp only [List.length_append, List.length_cons] at this ⊢
      omega
    · omega

theorem runLoop_joinToks (args : List Str) (toks : List Str) (rest : Str)
    (h : ∀ t ∈ toks, IsTok t) :
    runLoop args (joinToks toks rest) = runLoop (args ++ toks) rest := by
  induction toks generalizing args with
  | nil => simp [joinToks]
  | cons t ts ih =>
    have ht : IsTok t := h t (by simp)
    have hts : ∀ x ∈ ts, IsTok x := fun x hx => h x (by simp [hx])
    have : joinToks (t :: ts) rest = t ++ ' ' :: joinToks ts rest := rfl
    rw [this, runLoop_cut args _ ht, ih _ hts]
    simp

theorem parseArgs_trailing (toks : List Str) (t : Str) (h : ∀ x ∈ toks, IsTok x) :
    parseArgs (joinToks toks (':' :: t)) = toks ++ [t] := by
  simp [parseArgs, runLoop_joinToks [] toks _ h, runLoop_colon]

theorem parseArgs_last (toks : List Str) {last : Str} (h : ∀ x ∈ toks, IsTok x)
    (hne : last ≠ []) (hl : IsTok last) :
    parseArgs (joinToks toks last) = toks ++ [last] := by
  have hr := runLoop_last toks hne hl.2 hl.1
  cases last with
  | nil => exact absurd rfl hne
  | cons c r =>
    have hc2 : ¬ c = ':' := fun e => hl.2 (by simp [e])
    simp only [parseArgs, runLoop_joinToks [] toks _ h, List.nil_append, hr]
    split
    · rename_i heq
      simp at heq
      exact absurd heq.2.1 hc2
    · rename_i heq
      simp at heq
      exact heq.1.symm

/-! ## The shape of `ParseEvent` -/

theorem spaced_eq_joinToks (c : Str) (ms : List Str) (rest : Str) :
    c ++ spaced ms ++ ' ' :: rest = joinToks (c :: ms) rest := by
  induction ms generalizing c with
  | nil => simp [spaced, joinToks]
  | cons m ms ih =>
    have h1 : spaced (m :: ms) = ' ' :: m ++ spaced ms := rfl
    have h2 : joinToks (c :: m :: ms) rest = c ++ ' ' :: joinToks (m :: ms) rest := rfl
    rw [h1, h2, ← ih m]
    simp

theorem NoSpace.not_mem {s : Str} (h : NoSpace s) : ' ' ∉ s := by
  intro hm
  have := h _ hm
  rw [isSpace_space] at this
  cases this

theorem NoSpaceEnd_append {a b : Str} (hb : b ≠ []) (h : NoSpaceEnd b) :
    NoSpaceEnd (a ++ b) := by
  intro c hc
  rw [List.getLast?_append_of_ne_nil _ hb] at hc
  exact h c hc

theorem NoSpaceEnd_colon {t : Str} (h : NoSpaceEnd t) : NoSpaceEnd (':' :: t) := by
  intro c hc
  cases t with
  | nil =>
    simp at hc
    rw [← hc]
    exact not_isSpace_colon
  | cons x xs =>
    rw [List.getLast?_cons_cons] at hc
    exact h c hc

theorem NoSpaceEnd.getLast?_ne {s : Str} (h : NoSpaceEnd s) : s.getLast? ≠ some ' ' := by
  intro e
  have := h _ e
  rw [isSpace_space] at this
  cases this

theorem splitPrefix_colon_none {p : Str} (hp : ' ' ∉ p) :
    splitPrefix (':' :: p) = none := by
  have h : ' ' ∉ ':' :: p := by
    intro hm
    rcases List.mem_cons.mp hm with e | e
    · exact absurd e (by decide)
    · exact hp e
  simp [splitPrefix, SplitN_two_of_not_mem h]

theorem splitPrefix_colon_some {p : Str} (rest : Str) (hp : ' ' ∉ p) :
    splitPrefix (':' :: (p ++ ' ' :: rest)) = some (p, rest) := by
  have h : ' ' ∉ ':' :: p := by
    intro hm
    rcases List.mem_cons.mp hm with e | e
    · exact absurd e (by decide)
    · exact hp e
  have := SplitN_two_append rest h
  simp only [List.cons_append] at this
  simp [splitPrefix, this]

theorem splitPrefix_plain {line : Str} (h : line.head? ≠ some ':') :
    splitPrefix line = some ([], line) := by
  cases line with
  | nil => rfl
  | cons c r =>
    have hc : ¬ c = ':' := fun e => h (by simp [e])
    simp only [splitPrefix]
    split
    · rename_i heq
      simp at heq
      exact absurd heq.1 hc
    · rfl

/-- The event built by lines 111-116 from the parsed pieces. -/
theorem ParseEvent_of_split {line pfx rest : Str} (hne : TrimSpace line ≠ [])
    (hs : splitPrefix (TrimSpace line) = some (pfx, rest)) :
    ParseEvent line =
      match parseArgs rest with
      | [] => none
      | cmd :: args =>
        some { Raw := TrimSpace line, Identity := some (ParseIdentity pfx), Prefix := pfx,
               Command := cmd, Args := args } := by
  have hl : ¬ (TrimSpace line).length ≤ 0 := by
    intro h
    exact hne (List.length_eq_zero.mp (Nat.le_zero.mp h))
  simp only [ParseEvent, hl, if_false, hs]

theorem NoSpace.noSpaceStart {s : Str} (h : NoSpace s) : NoSpaceStart s := by
  intro c hc
  cases s with
  | nil => simp at hc
  | cons x xs =>
    simp at hc
    exact h c (by simp [hc])

theorem NoSpaceStart_append {a : Str} (b : Str) (ha : a ≠ []) (h : NoSpaceStart a) :
    NoSpaceStart (a ++ b) := by
  intro c hc
  cases a with
  | nil => exact absurd rfl ha
  | cons x xs => exact h c (by simpa using hc)

/-- What the argument loop and the trailing step produce on a non-empty text
that does not end in a space. -/
theorem parseArgs_shape (line : Str) (hne : line ≠ []) (hlast : line.getLast? ≠ some ' ') :
    ∃ toks last, (∀ t ∈ toks, IsTok t) ∧ parseArgs line = toks ++ [last] ∧
      (line = joinToks toks (':' :: last) ∨
        (line = joinToks toks last ∧ last ≠ [] ∧ IsTok last)) := by
  obtain ⟨toks, last, htoks, hshape⟩ := exists_joinToks line hne hlast
  refine ⟨toks, last, htoks, ?_, hshape⟩
  rcases hshape with h | ⟨h, h2, h3⟩
  · rw [h]; exact parseArgs_trailing toks last htoks
  · rw [h]; exact parseArgs_last toks htoks h2 h3

theorem NoSpaceEnd_of_append_cons {a b : Str} {x : Char} (hb : b ≠ [])
    (h : NoSpaceEnd (a ++ x :: b)) : NoSpaceEnd b := by
  intro c hc
  apply h c
  rw [List.getLast?_append_cons]
  cases b with
  | nil => exact absurd rfl hb
  | cons y ys => simpa using hc

/-- Every run of `ParseEvent`: either it fails, on an empty trimmed line or on
a prefix with nothing behind it, or the trimmed line is an optional prefix
followed by a non-empty text `rest` in one of the two wire shapes, and the
event holds the pieces. -/
theorem ParseEvent_cases (line : Str) :
    (ParseEvent line = none ∧
      (TrimSpace line = [] ∨ ∃ p, TrimSpace line = ':' :: p ∧ ' ' ∉ p)) ∨
    (∃ pfx rest toks last cmd args,
      ((TrimSpace line = ':' :: (pfx ++ ' ' :: rest) ∧ ' ' ∉ pfx) ∨
        (TrimSpace line = rest ∧ pfx = [] ∧ rest.head? ≠ some ':')) ∧
      rest ≠ [] ∧ NoSpaceEnd rest ∧
      (∀ t ∈ toks, IsTok t) ∧
      (rest = joinToks toks (':' :: last) ∨
        (rest = joinToks toks last ∧ last ≠ [] ∧ IsTok last)) ∧
      toks ++ [last] = cmd :: args ∧
      ParseEvent line = some { Raw := TrimSpace line, Identity := some (ParseIdentity pfx),
                               Prefix := pfx, Command := cmd, Args := args }) := by
  have hend := TrimSpace_noSpaceEnd line
  have key : ∀ pfx rest, splitPrefix (TrimSpace line) = some (pfx, rest) →
      TrimSpace line ≠ [] → rest ≠ [] → NoSpaceEnd rest →
      ∃ toks last cmd args, (∀ t ∈ toks, IsTok t) ∧
        (rest = joinToks toks (':' :: last) ∨
          (rest = joinToks toks last ∧ last ≠ [] ∧ IsTok last)) ∧
        toks ++ [last] = cmd :: args ∧
        ParseEvent line = some { Raw := TrimSpace line,
                                 Identity := some (ParseIdentity pfx),
                                 Prefix := pfx, Command := cmd, Args := args } := by
    intro pfx rest hs hT hne hre
    obtain ⟨toks, last, htoks, hpa, hshape⟩ := parseArgs_shape rest hne hre.getLast?_ne
    have hnil : toks ++ [last] ≠ [] := by simp
    cases hcons : toks ++ [last] with
    | nil => exact absurd hcons hnil
    | cons cmd args =>
      refine ⟨toks, last, cmd, args, htoks, hshape, hcons, ?_⟩
      rw [ParseEvent_of_split hT hs, hpa, hcons]
  cases hT : TrimSpace line with
  | nil =>
    left
    exact ⟨by simp [ParseEvent, hT], Or.inl rfl⟩
  | cons c r =>
    have hTne : TrimSpace line ≠ [] := by rw [hT]; simp
    by_cases hc : c = ':'
    · subst hc
      by_cases hsp : ' ' ∈ r
      · right
        cases hcut : Cut ' ' r with
        | none => exact absurd hsp (Cut_eq_none.mp hcut)
        | some q =>
          obtain ⟨pfx, rest⟩ := q
          obtain ⟨hr, hpfx⟩ := Cut_eq_some hcut
          have hrest : rest ≠ [] := by
            intro e
            have hl : (TrimSpace line).getLast? = some ' ' := by
              rw [hT, hr, e]
              exact List.getLast?_concat (':' :: pfx)
            have := hend ' ' hl
            rw [isSpace_space] at this
            cases this
          have hre : NoSpaceEnd rest := by
            have h1 : NoSpaceEnd ((':' :: pfx) ++ ' ' :: rest) := by
              rw [hT, hr] at hend
              exact hend
            exact NoSpaceEnd_of_append_cons hrest h1
          have hs : splitPrefix (TrimSpace line) = some (pfx, rest) := by
            rw [hT, hr]; exact splitPrefix_colon_some rest hpfx
          obtain ⟨toks, last, cmd, args, h1, h2, h3, h4⟩ := key pfx rest hs hTne hrest hre
          rw [hT] at h4
          exact ⟨pfx, rest, toks, last, cmd, args, Or.inl ⟨by rw [hr], hpfx⟩, hrest, hre,
            h1, h2, h3, h4⟩
      · left
        refine ⟨?_, Or.inr ⟨r, rfl, hsp⟩⟩
        have hl : ¬ (TrimSpace line).length ≤ 0 := by rw [hT]; simp
        simp only [ParseEvent, hl, if_false]
        rw [hT, splitPrefix_colon_none hsp]
    · right
      have hhead : (c :: r).head? ≠ some ':' := by simpa using hc
      have hs : splitPrefix (TrimSpace line) = some ([], c :: r) := by
        rw [hT]; exact splitPrefix_plain hhead
      have hre : NoSpaceEnd (c :: r) := by rw [← hT]; exact hend
      obtain ⟨toks, last, cmd, args, h1, h2, h3, h4⟩ :=
        key [] (c :: r) hs hTne (by simp) hre
      rw [hT] at h4
      exact ⟨[], c :: r, toks, last, cmd, args, Or.inr ⟨rfl, rfl, hhead⟩, by simp, hre,
        h1, h2, h3, h4⟩

/-! ## C1: parsing a line in wire form -/

/-- C1: for a prefix `p` without white space, a command `c` and middle
arguments `ms` that are non-empty, free of white space and do not begin with
`:`, and a trailing text `t` that does not end in white space, the line
`":" p " " c {" " m} " :" t` parses to Prefix `p`, Command `c` and Args
`ms ++ [t]`, and the same line without `":" p " "` parses to the empty Prefix
with the same Command and Args. -/
theorem ParseEvent_wire_form (p c : Str) (ms : List Str) (t : Str)
    (hp : NoSpace p)
    (hc : c ≠ [] ∧ NoSpace c ∧ c.head? ≠ some ':')
    (hms : ∀ m ∈ ms, m ≠ [] ∧ NoSpace m ∧ m.head? ≠ some ':')
    (ht : NoSpaceEnd t) :
    (∃ e, ParseEvent (':' :: p ++ ' ' :: c ++ spaced ms ++ ' ' :: ':' :: t) = some e ∧
        e.Prefix = p ∧ e.Command = c ∧ e.Args = ms ++ [t]) ∧
    (∃ e, ParseEvent (c ++ spaced ms ++ ' ' :: ':' :: t) = some e ∧
        e.Prefix = [] ∧ e.Command = c ∧ e.Args = ms ++ [t]) := by
  have htoks : ∀ x ∈ c :: ms, IsTok x := by
    intro x hx
    rcases List.mem_cons.mp hx with e | e
    · rw [e]; exact ⟨hc.2.1.not_mem, hc.2.2⟩
    · exact ⟨(hms x e).2.1.not_mem, (hms x e).2.2⟩
  have hargs := parseArgs_trailing (c :: ms) t htoks
  have hend : NoSpaceEnd (':' :: t) := NoSpaceEnd_colon ht
  constructor
  · have hline : ':' :: p ++ ' ' :: c ++ spaced ms ++ ' ' :: ':' :: t
        = ':' :: (p ++ ' ' :: joinToks (c :: ms) (':' :: t)) := by
      rw [← spaced_eq_joinToks]
      simp
    have htrim : TrimSpace (':' :: (p ++ ' ' :: joinToks (c :: ms) (':' :: t)))
        = ':' :: (p ++ ' ' :: joinToks (c :: ms) (':' :: t)) := by
      apply TrimSpace_eq_self
      · intro x hx
        simp at hx
        rw [← hx]
        exact not_isSpace_colon
      · rw [← hline]
        exact NoSpaceEnd_append (by simp) hend
    have hsplit := splitPrefix_colon_some (joinToks (c :: ms) (':' :: t)) hp.not_mem
    rw [← htrim] at hsplit
    have hne : TrimSpace (':' :: (p ++ ' ' :: joinToks (c :: ms) (':' :: t))) ≠ [] := by
      rw [htrim]; simp
    rw [hline, ParseEvent_of_split hne hsplit, hargs]
    exact ⟨_, rfl, rfl, rfl, rfl⟩
  · have hline : c ++ spaced ms ++ ' ' :: ':' :: t = joinToks (c :: ms) (':' :: t) :=
      spaced_eq_joinToks c ms _
    have htrim : TrimSpace (c ++ spaced ms ++ ' ' :: ':' :: t)
        = c ++ spaced ms ++ ' ' :: ':' :: t := by
      apply TrimSpace_eq_self
      · rw [List.append_assoc]
        exact NoSpaceStart_append _ hc.1 hc.2.1.noSpaceStart
      · exact NoSpaceEnd_append (by simp) hend
    have hhead : (c ++ spaced ms ++ ' ' :: ':' :: t).head? ≠ some ':' := by
      obtain ⟨hc1, _, hc3⟩ := hc
      cases c with
      | nil => exact absurd rfl hc1
      | cons x xs => simpa using hc3
    have hsplit : splitPrefix (TrimSpace (c ++ spaced ms ++ ' ' :: ':' :: t))
        = some ([], c ++ spaced ms ++ ' ' :: ':' :: t) := by
      rw [htrim]; exact splitPrefix_plain hhead
    have hne : TrimSpace (c ++ spaced ms ++ ' ' :: ':' :: t) ≠ [] := by
      rw [htrim]; simp
    rw [ParseEvent_of_split hne hsplit, hline, hargs]
    exact ⟨_, rfl, rfl, rfl, rfl⟩

/-- Witness of C1 at the scenarios of the specification:
`":nick!user@host PRIVMSG #chan :hello there"` and `"PING :server.example.com"`
(here with and without the prefix part). -/
theorem ParseEvent_wire_form_witness :
    (∃ e, ParseEvent ":nick!user@host PRIVMSG #chan :hello there".toList = some e ∧
        e.Prefix = "nick!user@host".toList ∧ e.Command = "PRIVMSG".toList ∧
        e.Args = ["#chan".toList, "hello there".toList]) ∧
    (∃ e, ParseEvent "PRIVMSG #chan :hello there".toList = some e ∧
        e.Prefix = [] ∧ e.Command = "PRIVMSG".toList ∧
        e.Args = ["#chan".toList, "hello there".toList]) :=
  ParseEvent_wire_form "nick!user@host".toList "PRIVMSG".toList ["#chan".toList]
    "hello there".toList (by decide) (by decide) (by decide) (by decide)

/-! ## C2: when `ParseEvent` fails -/

/-- C2: `ParseEvent` returns nil exactly when the trimmed line is empty, or
starts with `:` and holds no space character; on every other line it returns
an event. -/
theorem ParseEvent_eq_none_iff (line : Str) :
    ParseEvent line = none ↔
      (TrimSpace line = [] ∨
        ((TrimSpace line).head? = some ':' ∧ ' ' ∉ TrimSpace line)) := by
  rcases ParseEvent_cases line with ⟨hnone, hT⟩ |
    ⟨pfx, rest, toks, last, cmd, args, hT, hrest, -, -, -, -, hsome⟩
  · refine ⟨fun _ => ?_, fun _ => hnone⟩
    rcases hT with h | ⟨p, h, hp⟩
    · exact Or.inl h
    · right
      rw [h]
      refine ⟨rfl, ?_⟩
      intro hm
      rcases List.mem_cons.mp hm with e | e
      · exact absurd e (by decide)
      · exact hp e
  · constructor
    · intro h
      rw [hsome] at h
      cases h
    · intro h
      exfalso
      rcases hT with ⟨hT, -⟩ | ⟨hT, -, hhead⟩
      · rcases h with h | ⟨-, h⟩
        · rw [hT] at h; cases h
        · apply h
          rw [hT]
          simp
      · rcases h with h | ⟨h, -⟩
        · exact hrest (hT ▸ h)
        · exact hhead (hT ▸ h)

/-! ## C3: the command of a parsed line -/

theorem append_cons_inj_of_not_mem {sep : Char} {a a2 b b2 : Str}
    (h : a ++ sep :: b = a2 ++ sep :: b2) (ha : sep ∉ a) (ha2 : sep ∉ a2) :
    a = a2 ∧ b = b2 := by
  have h1 := Cut_append b ha
  rw [h, Cut_append b2 ha2] at h1
  simp at h1
  exact ⟨h1.1.symm, h1.2.symm⟩

/-- The first parsed piece is empty exactly when the text begins with a space
or is a lone `:`. -/
theorem first_piece_eq_nil_iff {rest : Str} {toks : List Str} {last cmd : Str}
    {args : List Str} (htoks : ∀ t ∈ toks, IsTok t)
    (hshape : rest = joinToks toks (':' :: last) ∨
      (rest = joinToks toks last ∧ last ≠ [] ∧ IsTok last))
    (hcons : toks ++ [last] = cmd :: args) :
    cmd = [] ↔ (rest.head? = some ' ' ∨ rest = [':']) := by
  cases toks with
  | nil =>
    simp at hcons
    obtain ⟨rfl, -⟩ := hcons
    rcases hshape with h | ⟨h, h2, h3⟩
    · rw [h]
      simp [joinToks]
    · have h4 : rest = last := h
      rw [h4]
      constructor
      · intro e; exact absurd e h2
      · rintro (e | e)
        · exact absurd (List.mem_of_mem_head? e) h3.1
        · rw [e] at h3
          exact absurd rfl h3.2
  | cons t ts =>
    simp at hcons
    obtain ⟨rfl, -⟩ := hcons
    have ht : IsTok t := htoks t (by simp)
    have hr : ∃ r, rest = t ++ ' ' :: r := by
      rcases hshape with h | ⟨h, -, -⟩
      · exact ⟨_, h⟩
      · exact ⟨_, h⟩
    obtain ⟨r, hr⟩ := hr
    rw [hr]
    cases t with
    | nil => simp
    | cons x xs =>
      have hx : x ≠ ' ' := fun e => ht.1 (by simp [e])
      have hx2 : x ≠ ':' := fun e => ht.2 (by simp [e])
      simp [hx, hx2]

/-- C3, as stated, fails: `":p  x"` parses to an event with an empty
Command. -/
theorem ParseEvent_command_empty_example :
    (ParseEvent ":p  x".toList).map (fun e => e.Command) = some [] := by
  decide

/-- C3 (amended): on a successful parse the Command is non-empty when the
trimmed line carries no prefix; when it is `":" p " " rest`, the Command is
empty exactly when `rest` begins with a space or is a lone `:`. -/
theorem ParseEvent_command_nonempty (line : Str) (e : Event) (h : ParseEvent line = some e) :
    ((TrimSpace line).head? ≠ some ':' → e.Command ≠ []) ∧
    (∀ p rest, TrimSpace line = ':' :: (p ++ ' ' :: rest) → ' ' ∉ p →
      (e.Command = [] ↔ (rest.head? = some ' ' ∨ rest = [':']))) := by
  rcases ParseEvent_cases line with ⟨hnone, -⟩ |
    ⟨pfx, rest, toks, last, cmd, args, hT, hrest, -, htoks, hshape, hcons, hsome⟩
  · rw [hnone] at h; cases h
  · rw [hsome] at h
    cases h
    have hfirst := first_piece_eq_nil_iff htoks hshape hcons
    constructor
    · intro hhead hcmd
      rcases hT with ⟨hT, -⟩ | ⟨hT, -, -⟩
      · exact hhead (by rw [hT]; rfl)
      · rcases hfirst.mp hcmd with e | e
        · have := TrimSpace_noSpaceStart line ' ' (hT ▸ e)
          rw [isSpace_space] at this
          cases this
        · apply hhead
          rw [hT, e]
          rfl
    · intro p rest2 hT2 hp
      rcases hT with ⟨hT, hpfx⟩ | ⟨hT, -, hhead⟩
      · rw [hT] at hT2
        simp only [List.cons.injEq, true_and] at hT2
        obtain ⟨-, e2⟩ := append_cons_inj_of_not_mem hT2 hpfx hp
        rw [← e2]
        exact hfirst
      · exfalso
        apply hhead
        rw [← hT, hT2]
        rfl

/-- Witness of C3 (amended) at `"PING :server.example.com"`, a line without
prefix. -/
theorem ParseEvent_command_nonempty_witness :
    ∃ e, ParseEvent "PING :server.example.com".toList = some e ∧
      e.Command ≠ [] :=
  ⟨_, rfl, (ParseEvent_command_nonempty "PING :server.example.com".toList _ rfl).1
    (by decide)⟩

/-! ## C4: `ParseIdentity` -/

theorem ParseIdentity_of_no_at {s : Str} (h : '@' ∉ s) :
    ParseIdentity s = { Raw := s, Nick := [], User := [], Host := s } := by
  simp [ParseIdentity, SplitN_two_of_not_mem h]

theorem ParseIdentity_of_at_no_bang {u : Str} (h : Str) (hu : '@' ∉ u) (hb : '!' ∉ u) :
    ParseIdentity (u ++ '@' :: h) =
      { Raw := u ++ '@' :: h, Nick := [], User := u, Host := h } := by
  simp [ParseIdentity, SplitN_two_append h hu, SplitN_two_of_not_mem hb]

theorem ParseIdentity_of_at_bang {n : Str} (w h : Str) (hu : '@' ∉ n ++ '!' :: w)
    (hn : '!' ∉ n) :
    ParseIdentity (n ++ '!' :: w ++ '@' :: h) =
      { Raw := n ++ '!' :: w ++ '@' :: h, Nick := n, User := w, Host := h } := by
  simp only [ParseIdentity, SplitN_two_append h hu, SplitN_two_append w hn]

/-- C4: `ParseIdentity s` has Raw `s`; without `@` in `s` it is host-only;
otherwise, with `u` the text before the first `@` and `h` the text after it,
Host is `h`, and User is `u` with an empty Nick when `u` holds no `!`, else
Nick and User are the texts before and after the first `!` of `u`. -/
theorem ParseIdentity_spec (s : Str) :
    (ParseIdentity s).Raw = s ∧
    ('@' ∉ s → (ParseIdentity s).Host = s ∧ (ParseIdentity s).Nick = [] ∧
      (ParseIdentity s).User = []) ∧
    (∀ u h, s = u ++ '@' :: h → '@' ∉ u →
      (ParseIdentity s).Host = h ∧
      ('!' ∉ u → (ParseIdentity s).User = u ∧ (ParseIdentity s).Nick = []) ∧
      (∀ n w, u = n ++ '!' :: w → '!' ∉ n →
        (ParseIdentity s).Nick = n ∧ (ParseIdentity s).User = w)) := by
  refine ⟨?_, ?_, ?_⟩
  · simp only [ParseIdentity]
    split
    · split <;> rfl
    · rfl
  · intro h
    rw [ParseIdentity_of_no_at h]
    exact ⟨rfl, rfl, rfl⟩
  · intro u h hs hu
    subst hs
    by_cases hb : '!' ∈ u
    · cases hcut : Cut '!' u with
      | none => exact absurd hb (Cut_eq_none.mp hcut)
      | some q =>
        obtain ⟨n, w⟩ := q
        obtain ⟨hnw, hn⟩ := Cut_eq_some hcut
        subst hnw
        rw [ParseIdentity_of_at_bang w h hu hn]
        refine ⟨rfl, fun hno => absurd hb hno, ?_⟩
        intro n2 w2 he hn2
        obtain ⟨e1, e2⟩ := append_cons_inj_of_not_mem he hn hn2
        exact ⟨e1, e2⟩
    · rw [ParseIdentity_of_at_no_bang h hu hb]
      refine ⟨rfl, fun _ => ⟨rfl, rfl⟩, ?_⟩
      intro n w he _
      exfalso
      apply hb
      rw [he]
      simp

/-- Witness of C4 at `"a!b!c@d@e"`: both splits are at the first occurrence of
the delimiter. -/
theorem ParseIdentity_spec_witness :
    (ParseIdentity "a!b!c@d@e".toList).Host = "d@e".toList ∧
    (ParseIdentity "a!b!c@d@e".toList).Nick = "a".toList ∧
    (ParseIdentity "a!b!c@d@e".toList).User = "b!c".toList :=
  have h := (ParseIdentity_spec "a!b!c@d@e".toList).2.2 "a!b!c".toList "d@e".toList
    (by decide) (by decide)
  have h2 := h.2.2 "a".toList "b!c".toList (by decide) (by decide)
  ⟨h.1, h2.1, h2.2⟩

/-! ## C5: lines without a trailing parameter -/

theorem splitOn_joinToks (toks : List Str) (last : Str) (h : ∀ t ∈ toks, ' ' ∉ t)
    (hl : ' ' ∉ last) :
    List.splitOn ' ' (joinToks toks last) = toks ++ [last] := by
  induction toks with
  | nil =>
    simp only [joinToks, List.foldr_nil, List.nil_append, List.splitOn]
    apply List.splitOnP_eq_single
    intro x hx hp
    have : x = ' ' := by simpa using hp
    exact hl (this ▸ hx)
  | cons t ts ih =>
    have h1 : joinToks (t :: ts) last = t ++ ' ' :: joinToks ts last := rfl
    have ht : ∀ x ∈ t, ¬ ((fun c : Char => c == ' ') x = true) := by
      intro x hx hp
      have : x = ' ' := by simpa using hp
      exact h t (by simp) (this ▸ hx)
    have ih2 := ih (fun x hx => h x (by simp [hx]))
    simp only [List.splitOn] at ih2 ⊢
    rw [h1, List.splitOnP_first _ _ ht ' ' (by simp), ih2]
    rfl

theorem joinToks_colon_has_sep {toks : List Str} (last : Str) (h : toks ≠ []) :
    [' ', ':'] <:+: joinToks toks (':' :: last) := by
  induction toks with
  | nil => exact absurd rfl h
  | cons t ts ih =>
    have h1 : joinToks (t :: ts) (':' :: last) = t ++ ' ' :: joinToks ts (':' :: last) := rfl
    rw [h1]
    cases ts with
    | nil => exact ⟨t, last, by simp [joinToks]⟩
    | cons t2 ts2 =>
      obtain ⟨a, b, hab⟩ := ih (by simp)
      exact ⟨t ++ ' ' :: a, b, by rw [← hab]; simp⟩

/-- C5, as stated, fails on the empty line: its trimmed form neither starts
with `:` nor holds `" :"`, and `ParseEvent` returns nil. -/
theorem ParseEvent_plain_empty_example :
    (TrimSpace []).head? ≠ some ':' ∧ ¬ [' ', ':'] <:+: TrimSpace [] ∧
      ParseEvent [] = none := by
  decide

/-- C5 (amended): when the trimmed line is non-empty, does not start with `:`
and holds no `" :"`, `ParseEvent` succeeds with an empty Prefix, and
Command followed by Args is the trimmed line split at every space
character. -/
theorem ParseEvent_plain (line : Str) (hne : TrimSpace line ≠ [])
    (hhead : (TrimSpace line).head? ≠ some ':')
    (hsep : ¬ [' ', ':'] <:+: TrimSpace line) :
    ∃ e, ParseEvent line = some e ∧ e.Prefix = [] ∧
      e.Command :: e.Args = List.splitOn ' ' (TrimSpace line) := by
  rcases ParseEvent_cases line with ⟨-, hT | ⟨p, hT, -⟩⟩ |
    ⟨pfx, rest, toks, last, cmd, args, hT, -, -, htoks, hshape, hcons, hsome⟩
  · exact absurd hT hne
  · exact absurd (by rw [hT]; rfl) hhead
  · rcases hT with ⟨hT, -⟩ | ⟨hT, hpfx, -⟩
    · exact absurd (by rw [hT]; rfl) hhead
    · refine ⟨_, hsome, hpfx, ?_⟩
      show cmd :: args = _
      rw [← hcons, hT]
      rcases hshape with h | ⟨h, -, h3⟩
      · exfalso
        cases toks with
        | nil =>
          apply hhead
          rw [hT, h]
          rfl
        | cons t ts =>
          apply hsep
          rw [hT, h]
          exact joinToks_colon_has_sep last (by simp)
      · rw [h, splitOn_joinToks toks last (fun t ht => (htoks t ht).1) h3.1]

/-- Witness of C5 (amended) at `"JOIN #a #b #c"`. -/
theorem ParseEvent_plain_witness :
    ∃ e, ParseEvent "JOIN #a #b #c".toList = some e ∧ e.Prefix = [] ∧
      e.Command :: e.Args = List.splitOn ' ' (TrimSpace "JOIN #a #b #c".toList) :=
  ParseEvent_plain "JOIN #a #b #c".toList (by decide) (by decide) (by decide)

/-! ## C6: arguments before the last one -/

/-- The pieces after the first one: none, or the remaining tokens followed by
the last piece. -/
theorem pieces_tail {toks : List Str} {last cmd : Str} {args : List Str}
    (hcons : toks ++ [last] = cmd :: args) :
    (toks = [] ∧ cmd = last ∧ args = []) ∨
      (∃ mid, toks = cmd :: mid ∧ args = mid ++ [last]) := by
  cases toks with
  | nil =>
    simp at hcons
    exact Or.inl ⟨rfl, hcons.1.symm, hcons.2⟩
  | cons t ts =>
    simp at hcons
    exact Or.inr ⟨ts, by rw [hcons.1], hcons.2.symm⟩

/-- Every argument of a parsed line other than the last is a token of the
argument loop. -/
theorem ParseEvent_middle_isTok {line : Str} {e : Event} (h : ParseEvent line = some e) :
    ∀ a ∈ e.Args.dropLast, IsTok a := by
  rcases ParseEvent_cases line with ⟨hnone, -⟩ |
    ⟨pfx, rest, toks, last, cmd, args, -, -, -, htoks, -, hcons, hsome⟩
  · rw [hnone] at h; cases h
  · rw [hsome] at h
    cases h
    intro a ha
    rcases pieces_tail hcons with ⟨-, -, h3⟩ | ⟨mid, h1, h2⟩
    · rw [h3] at ha
      simp at ha
    · have ha2 : a ∈ mid := by
        have : (mid ++ [last]).dropLast = mid := List.dropLast_concat
        rw [← this, ← h2]
        exact ha
      exact htoks a (by rw [h1]; simp [ha2])

/-- C6, as stated, fails: in `"JOIN a\tb c"` the argument `"a\tb"` is not
the last one and holds a tab, which is white space. -/
theorem ParseEvent_middle_tab_example :
    (ParseEvent "JOIN a\tb c".toList).map
        (fun e => (e.Args, e.Args.dropLast.map (fun a => a.any isSpace))) =
      some (["a\tb".toList, "c".toList], [true]) := by
  decide

/-- C6 (amended): on a successful parse every entry of Args other than the
last holds no space character (U+0020); only the last entry may hold one. -/
theorem ParseEvent_middle_no_space (line : Str) (e : Event) (h : ParseEvent line = some e) :
    ∀ a ∈ e.Args.dropLast, ' ' ∉ a :=
  fun a ha => (ParseEvent_middle_isTok h a ha).1

/-- Witness of C6 (amended) at `"JOIN a\tb c"`. -/
theorem ParseEvent_middle_no_space_witness :
    ∃ e, ParseEvent "JOIN a\tb c".toList = some e ∧ ∀ a ∈ e.Args.dropLast, ' ' ∉ a :=
  ⟨_, rfl, ParseEvent_middle_no_space "JOIN a\tb c".toList _ rfl⟩

/-! ## C7: user and nick of an identity -/

/-- C7, as stated, fails: `"nick@host"` has User `"nick"` and an empty
Nick. -/
theorem ParseIdentity_user_without_nick_example :
    (ParseIdentity "nick@host".toList).User = "nick".toList ∧
      (ParseIdentity "nick@host".toList).Nick = [] := by
  decide

/-- C7 (amended): a non-empty User means that `s` holds an `@`; a non-empty
Nick means that, in addition, the text before the first `@` holds a `!`. -/
theorem ParseIdentity_user_nick (s : Str) :
    ((ParseIdentity s).User ≠ [] → '@' ∈ s) ∧
    ((ParseIdentity s).Nick ≠ [] →
      ∃ u h, s = u ++ '@' :: h ∧ '@' ∉ u ∧ '!' ∈ u) := by
  by_cases hat : '@' ∈ s
  · refine ⟨fun _ => hat, ?_⟩
    cases hcut : Cut '@' s with
    | none => exact absurd hat (Cut_eq_none.mp hcut)
    | some q =>
      obtain ⟨u, h⟩ := q
      obtain ⟨hs, hu⟩ := Cut_eq_some hcut
      intro hn
      refine ⟨u, h, hs, hu, ?_⟩
      by_contra hb
      rw [hs, ParseIdentity_of_at_no_bang h hu hb] at hn
      exact hn rfl
  · rw [ParseIdentity_of_no_at hat]
    exact ⟨fun h => absurd rfl h, fun h => absurd rfl h⟩

/-- Witness of C7 (amended) at `"nick!user@host"`. -/
theorem ParseIdentity_user_nick_witness :
    '@' ∈ "nick!user@host".toList ∧
      ∃ u h, "nick!user@host".toList = u ++ '@' :: h ∧ '@' ∉ u ∧ '!' ∈ u :=
  ⟨(ParseIdentity_user_nick "nick!user@host".toList).1 (by decide),
    (ParseIdentity_user_nick "nick!user@host".toList).2 (by decide)⟩

/-! ## C8: the identity of a parsed line -/

/-- A parsed event carries the identity decomposed from its own Prefix. -/
theorem ParseEvent_identity_present {line : Str} {e : Event} (h : ParseEvent line = some e) :
    e.Identity = some (ParseIdentity e.Prefix) := by
  rcases ParseEvent_cases line with ⟨hnone, -⟩ |
    ⟨pfx, rest, toks, last, cmd, args, -, -, -, -, -, -, hsome⟩
  · rw [hnone] at h; cases h
  · rw [hsome] at h
    cases h
    rfl

/-- C8: on a successful parse the Identity is present and is
`ParseIdentity` of the Prefix; when the trimmed line does not start with `:`,
the Prefix is empty and all four fields of the Identity are empty. -/
theorem ParseEvent_identity (line : Str) (e : Event) (h : ParseEvent line = some e) :
    e.Identity = some (ParseIdentity e.Prefix) ∧
    ((TrimSpace line).head? ≠ some ':' →
      e.Prefix = [] ∧
      e.Identity = some { Raw := [], Nick := [], User := [], Host := [] }) := by
  rcases ParseEvent_cases line with ⟨hnone, -⟩ |
    ⟨pfx, rest, toks, last, cmd, args, hT, -, -, -, -, -, hsome⟩
  · rw [hnone] at h; cases h
  · rw [hsome] at h
    cases h
    refine ⟨rfl, ?_⟩
    intro hhead
    rcases hT with ⟨hT, -⟩ | ⟨-, hpfx, -⟩
    · exact absurd (by rw [hT]; rfl) hhead
    · subst hpfx
      exact ⟨rfl, rfl⟩

/-- Witness of C8 at `"PING :server.example.com"`. -/
theorem ParseEvent_identity_witness :
    ∃ e, ParseEvent "PING :server.example.com".toList = some e ∧
      e.Identity = some (ParseIdentity e.Prefix) ∧ e.Prefix = [] ∧
      e.Identity = some { Raw := [], Nick := [], User := [], Host := [] } :=
  have h := ParseEvent_identity "PING :server.example.com".toList _ rfl
  ⟨_, rfl, h.1, h.2 (by decide)⟩

/-! ## C9: parsing the canonical wire form again -/

/-- Parsing an optional prefix followed by a text `body` that is already
trimmed and does not begin with `:`. -/
theorem ParseEvent_of_body (pfx body cmd : Str) (args : List Str) (hp : ' ' ∉ pfx)
    (hb : body ≠ []) (hstart : NoSpaceStart body) (hend : NoSpaceEnd body)
    (hhead : body.head? ≠ some ':') (hargs : parseArgs body = cmd :: args) :
    ∃ raw, ParseEvent ((if pfx ≠ [] then ':' :: pfx ++ [' '] else []) ++ body) =
      some { Raw := raw, Identity := some (ParseIdentity pfx), Prefix := pfx,
             Command := cmd, Args := args } := by
  by_cases hpfx : pfx = []
  · subst hpfx
    have htrim : TrimSpace body = body := TrimSpace_eq_self hstart hend
    have hs : splitPrefix (TrimSpace body) = some ([], body) := by
      rw [htrim]; exact splitPrefix_plain hhead
    have hne : TrimSpace body ≠ [] := by rw [htrim]; exact hb
    refine ⟨TrimSpace body, ?_⟩
    simp only [ne_eq, not_true_eq_false, if_false, List.nil_append]
    rw [ParseEvent_of_split hne hs, hargs]
  · have hline : (if pfx ≠ [] then ':' :: pfx ++ [' '] else []) ++ body
        = ':' :: (pfx ++ ' ' :: body) := by
      simp [hpfx]
    have htrim : TrimSpace (':' :: (pfx ++ ' ' :: body)) = ':' :: (pfx ++ ' ' :: body) := by
      apply TrimSpace_eq_self
      · intro x hx
        simp at hx
        rw [← hx]
        exact not_isSpace_colon
      · have : ':' :: (pfx ++ ' ' :: body) = (':' :: pfx ++ [' ']) ++ body := by simp
        rw [this]
        exact NoSpaceEnd_append hb hend
    have hs : splitPrefix (TrimSpace (':' :: (pfx ++ ' ' :: body))) = some (pfx, body) := by
      rw [htrim]; exact splitPrefix_colon_some body hp
    have hne : TrimSpace (':' :: (pfx ++ ' ' :: body)) ≠ [] := by rw [htrim]; simp
    refine ⟨TrimSpace (':' :: (pfx ++ ' ' :: body)), ?_⟩
    rw [hline, ParseEvent_of_split hne hs, hargs]

theorem NoSpaceEnd_joinToks_colon (toks : List Str) {last : Str} (h : NoSpaceEnd last) :
    NoSpaceEnd (joinToks toks (':' :: last)) := by
  induction toks with
  | nil => exact NoSpaceEnd_colon h
  | cons t ts ih =>
    have h1 : joinToks (t :: ts) (':' :: last) = (t ++ [' ']) ++ joinToks ts (':' :: last) := by
      simp [joinToks]
    rw [h1]
    refine NoSpaceEnd_append ?_ ih
    cases ts <;> simp [joinToks]

theorem joinToks_ne_nil_of_rest {toks : List Str} {rest : Str} (h : rest ≠ []) :
    joinToks toks rest ≠ [] := by
  cases toks <;> simp [joinToks, h]

/-- The last piece of a text without white space at its end has none at its
end either. -/
theorem NoSpaceEnd_last_piece {rest : Str} {toks : List Str} {last : Str}
    (hend : NoSpaceEnd rest)
    (hshape : rest = joinToks toks (':' :: last) ∨
      (rest = joinToks toks last ∧ last ≠ [] ∧ IsTok last)) :
    NoSpaceEnd last := by
  have key : ∀ (ts : List Str) (tail : Str), tail ≠ [] → NoSpaceEnd (joinToks ts tail) →
      NoSpaceEnd tail := by
    intro ts
    induction ts with
    | nil => intro tail _ h; exact h
    | cons t ts ih =>
      intro tail htail h
      have h1 : joinToks (t :: ts) tail = t ++ ' ' :: joinToks ts tail := rfl
      rw [h1] at h
      exact ih tail htail (NoSpaceEnd_of_append_cons (joinToks_ne_nil_of_rest htail) h)
  rcases hshape with h | ⟨h, h2, -⟩
  · rw [h] at hend
    have h3 := key toks (':' :: last) (by simp) hend
    intro c hc
    cases last with
    | nil => simp at hc
    | cons x xs =>
      apply h3 c
      rw [List.getLast?_cons_cons]
      exact hc
  · rw [h] at hend
    exact key toks last h2 hend

/-- C9, as stated, fails: `":p :foo bar"` parses to the Command `"foo bar"`
without Args; its wire form `":p foo bar"` parses to the Command `"foo"` with
Args `["bar"]`. -/
theorem ParseEvent_wire_roundtrip_example :
    (ParseEvent ":p :foo bar".toList).bind
        (fun m => (ParseEvent m.wire).map
          (fun r => (m.wire, m.Command, m.Args, r.Command, r.Args))) =
      some (":p foo bar".toList, "foo bar".toList, [], "foo".toList, ["bar".toList]) := by
  decide

/-- C9 (amended): when `ParseEvent` succeeds with an event `m` whose Command
is non-empty, holds no space character and begins neither with `:` nor with
white space, parsing the canonical wire form of `m` succeeds and gives the same
Prefix, Identity, Command and Args. -/
theorem ParseEvent_wire_roundtrip (line : Str) (m : Event) (h : ParseEvent line = some m)
    (hne : m.Command ≠ []) (hsp : ' ' ∉ m.Command) (hcol : m.Command.head? ≠ some ':')
    (hws : NoSpaceStart m.Command) :
    ∃ r, ParseEvent m.wire = some r ∧ r.Prefix = m.Prefix ∧ r.Identity = m.Identity ∧
      r.Command = m.Command ∧ r.Args = m.Args := by
  rcases ParseEvent_cases line with ⟨hnone, -⟩ |
    ⟨pfx, rest, toks, last, cmd, args, hT, hrest, hend, htoks, hshape, hcons, hsome⟩
  · rw [hnone] at h; cases h
  · rw [hsome] at h
    cases h
    simp only at hne hsp hcol hws
    have hpfx : ' ' ∉ pfx := by
      rcases hT with ⟨-, hp⟩ | ⟨-, hp, -⟩
      · exact hp
      · rw [hp]; simp
    have hlast : NoSpaceEnd last := NoSpaceEnd_last_piece hend hshape
    have hcmd : IsTok cmd := ⟨hsp, hcol⟩
    have hbody : ∃ body, body ≠ [] ∧ NoSpaceStart body ∧ NoSpaceEnd body ∧
        body.head? ≠ some ':' ∧ parseArgs body = cmd :: args ∧
        cmd ++ spaced args.dropLast ++
          (match args.getLast? with
            | some l => ' ' :: ':' :: l
            | none => []) = body := by
      rcases pieces_tail hcons with ⟨-, h2, h3⟩ | ⟨mid, h1, h2⟩
      · refine ⟨cmd, hne, hws, h2 ▸ hlast, hcol, ?_, ?_⟩
        · have := parseArgs_last [] (by simp) hne hcmd
          rw [h3]
          simpa [joinToks] using this
        · rw [h3]
          simp [spaced]
      · have hmid : ∀ x ∈ cmd :: mid, IsTok x := fun x hx => htoks x (h1 ▸ hx)
        refine ⟨joinToks (cmd :: mid) (':' :: last), joinToks_ne_nil_of_rest (by simp),
          ?_, NoSpaceEnd_joinToks_colon _ hlast, ?_, ?_, ?_⟩
        · have h4 : joinToks (cmd :: mid) (':' :: last)
              = cmd ++ ' ' :: joinToks mid (':' :: last) := rfl
          rw [h4]
          exact NoSpaceStart_append _ hne hws
        · have h4 : joinToks (cmd :: mid) (':' :: last)
              = cmd ++ ' ' :: joinToks mid (':' :: last) := rfl
          rw [h4]
          cases cmd with
          | nil => exact absurd rfl hne
          | cons x xs => simpa using hcol
        · rw [parseArgs_trailing _ _ hmid, h2]
          rfl
        · rw [h2, List.dropLast_concat, List.getLast?_concat]
          exact spaced_eq_joinToks cmd mid _
    obtain ⟨body, hb1, hb2, hb3, hb4, hb5, hb6⟩ := hbody
    obtain ⟨raw, hraw⟩ := ParseEvent_of_body pfx body cmd args hpfx hb1 hb2 hb3 hb4 hb5
    refine ⟨Event.mk raw (some (ParseIdentity pfx)) pfx cmd args, ?_, rfl, rfl, rfl, rfl⟩
    have hw : Event.wire (Event.mk (TrimSpace line) (some (ParseIdentity pfx)) pfx cmd args)
        = (if pfx ≠ [] then ':' :: pfx ++ [' '] else []) ++ body := by
      rw [← hb6]
      simp only [Event.wire, List.append_assoc]
    rw [hw]
    exact hraw

/-- Witness of C9 (amended) at `":nick!user@host PRIVMSG #chan :hello there"`. -/
theorem ParseEvent_wire_roundtrip_witness :
    ∃ m, ParseEvent ":nick!user@host PRIVMSG #chan :hello there".toList = some m ∧
      ∃ r, ParseEvent m.wire = some r ∧ r.Prefix = m.Prefix ∧ r.Identity = m.Identity ∧
        r.Command = m.Command ∧ r.Args = m.Args :=
  ⟨_, rfl, ParseEvent_wire_roundtrip ":nick!user@host PRIVMSG #chan :hello there".toList _ rfl
    (by decide) (by decide) (by decide) (by decide)⟩

/-! ## C10: copies of a parsed event -/

/-- C10: for an event returned by `ParseEvent`, `Copy` completes and returns
an event with the same Raw, Prefix, Command and Args and an Identity with the
same four fields; `Identity.Copy` returns its receiver field by field. -/
theorem ParseEvent_copy (line : Str) (e : Event) (h : ParseEvent line = some e) :
    (∃ c i ci, e.Copy = some c ∧ c.Raw = e.Raw ∧ c.Prefix = e.Prefix ∧
      c.Command = e.Command ∧ c.Args = e.Args ∧
      e.Identity = some i ∧ c.Identity = some ci ∧
      ci.Raw = i.Raw ∧ ci.Nick = i.Nick ∧ ci.User = i.User ∧ ci.Host = i.Host) ∧
    (∀ i : Identity, i.Copy.Raw = i.Raw ∧ i.Copy.Nick = i.Nick ∧
      i.Copy.User = i.User ∧ i.Copy.Host = i.Host) := by
  refine ⟨?_, fun i => ⟨rfl, rfl, rfl, rfl⟩⟩
  have hid := ParseEvent_identity_present h
  refine ⟨{ Raw := e.Raw, Identity := some (ParseIdentity e.Prefix).Copy,
            Prefix := e.Prefix, Command := e.Command, Args := [] ++ e.Args },
    ParseIdentity e.Prefix, (ParseIdentity e.Prefix).Copy, ?_, ?_⟩
  · simp only [Event.Copy, hid]
  · exact ⟨rfl, rfl, rfl, by simp, hid, rfl, rfl, rfl, rfl, rfl⟩

/-- Witness of C10 at `":nick!user@host PRIVMSG #chan :hello there"`. -/
theorem ParseEvent_copy_witness :
    ∃ e, ParseEvent ":nick!user@host PRIVMSG #chan :hello there".toList = some e ∧
      ∃ c, e.Copy = some c ∧ c.Args = e.Args ∧ c.Command = "PRIVMSG".toList :=
  have h := (ParseEvent_copy ":nick!user@host PRIVMSG #chan :hello there".toList _ rfl).1
  ⟨_, rfl, h.choose, h.choose_spec.choose_spec.choose_spec.1,
    h.choose_spec.choose_spec.choose_spec.2.2.2.2.1,
    h.choose_spec.choose_spec.choose_spec.2.2.2.1.trans rfl⟩

/-! ## C12, C13, C14: the accessors -/

/-- C12: `FromChannel` never fails, and it is true exactly when Args is
non-empty, its first entry is non-empty, and that entry begins with `#` or
`&`; the event parsed from `":nick!user@host PRIVMSG #chan :hello there"`
gives true. -/
theorem FromChannel_spec :
    (∀ e : Event,
      (e.FromChannel = some true ∨ e.FromChannel = some false) ∧
      (e.FromChannel = some true ↔
        ∃ a rest, e.Args = a :: rest ∧ a ≠ [] ∧
          (a.head? = some '#' ∨ a.head? = some '&'))) ∧
    (ParseEvent ":nick!user@host PRIVMSG #chan :hello there".toList).bind
      Event.FromChannel = some true := by
  refine ⟨?_, by decide⟩
  intro e
  obtain ⟨raw, ident, pfx, cmd, args⟩ := e
  cases args with
  | nil => simp [Event.FromChannel]
  | cons a rest =>
    cases a with
    | nil => simp [Event.FromChannel]
    | cons c r =>
      by_cases h1 : c = '#'
      · simp [Event.FromChannel, h1]
      · by_cases h2 : c = '&'
        · simp [Event.FromChannel, h2]
        · simp [Event.FromChannel, h1, h2]

/-- C13: `Trailing` never fails; it returns the last entry of Args, and the
empty string when Args is empty. -/
theorem Trailing_spec (e : Event) :
    e.Trailing = some (e.Args.getLast?.getD []) := by
  obtain ⟨raw, ident, pfx, cmd, args⟩ := e
  cases args with
  | nil => simp [Event.Trailing]
  | cons a rest =>
    simp only [Event.Trailing]
    rw [if_neg (by simp)]
    rw [← List.getLast?_eq_getElem?]
    cases h : (a :: rest).getLast? with
    | none => simp at h
    | some x => rfl

/-- C14: `Message` and `Trailing` are the same function of Args. -/
theorem Message_eq_Trailing (e : Event) : e.Message = e.Trailing := by
  obtain ⟨raw, ident, pfx, cmd, args⟩ := e
  cases args with
  | nil => rfl
  | cons a rest => simp [Event.Message, Event.Trailing]

/-! ## C16, C18, C19: more on `ParseIdentity` -/

/-- The three outcomes of `ParseIdentity`: host only, `user@host`, and
`nick!user@host`, each split at the first occurrence of its delimiter. -/
theorem ParseIdentity_cases (s : Str) :
    ('@' ∉ s ∧ ParseIdentity s = { Raw := s, Nick := [], User := [], Host := s }) ∨
    (∃ u h, s = u ++ '@' :: h ∧ '@' ∉ u ∧ '!' ∉ u ∧
      ParseIdentity s = { Raw := s, Nick := [], User := u, Host := h }) ∨
    (∃ n w h, s = n ++ '!' :: w ++ '@' :: h ∧ '@' ∉ n ++ '!' :: w ∧ '!' ∉ n ∧
      ParseIdentity s = { Raw := s, Nick := n, User := w, Host := h }) := by
  by_cases hat : '@' ∈ s
  · right
    cases hcut : Cut '@' s with
    | none => exact absurd hat (Cut_eq_none.mp hcut)
    | some q =>
      obtain ⟨u, h⟩ := q
      obtain ⟨hs, hu⟩ := Cut_eq_some hcut
      by_cases hb : '!' ∈ u
      · right
        cases hcut2 : Cut '!' u with
        | none => exact absurd hb (Cut_eq_none.mp hcut2)
        | some q2 =>
          obtain ⟨n, w⟩ := q2
          obtain ⟨hnw, hn⟩ := Cut_eq_some hcut2
          subst hnw
          refine ⟨n, w, h, hs, hu, hn, ?_⟩
          rw [hs]
          exact ParseIdentity_of_at_bang w h hu hn
      · left
        refine ⟨u, h, hs, hu, hb, ?_⟩
        rw [hs]
        exact ParseIdentity_of_at_no_bang h hu hb
  · exact Or.inl ⟨hat, ParseIdentity_of_no_at hat⟩

theorem takeWhile_ne_append_cons {sep : Char} {u : Str} (h : Str) (hu : sep ∉ u) :
    (u ++ sep :: h).takeWhile (fun c => c != sep) = u := by
  induction u with
  | nil => simp
  | cons x xs ih =>
    have hx : x ≠ sep := fun e => hu (by simp [e])
    have hxs : sep ∉ xs := fun e => hu (by simp [e])
    have hb : (x != sep) = true := by simpa using hx
    simp only [List.cons_append, List.takeWhile_cons, hb, if_true, ih hxs]

/-- C16: `ParseIdentity` is total: with every index expression checked it
still returns a result for every text, and for the empty text all four fields
are empty. -/
theorem ParseIdentity_total :
    (∀ s, ParseIdentityChecked s = some (ParseIdentity s)) ∧
    ParseIdentity [] = { Raw := [], Nick := [], User := [], Host := [] } := by
  refine ⟨?_, rfl⟩
  intro s
  rcases ParseIdentity_cases s with ⟨hat, hid⟩ | ⟨u, h, hs, hu, hb, hid⟩ |
    ⟨n, w, h, hs, hu, hn, hid⟩
  · rw [hid]
    simp [ParseIdentityChecked, SplitN_two_of_not_mem hat]
  · rw [hid, hs]
    simp [ParseIdentityChecked, SplitN_two_append h hu, SplitN_two_of_not_mem hb]
  · rw [hid, hs]
    simp only [ParseIdentityChecked, SplitN_two_append h hu]
    simp [SplitN_two_append w hn]

/-- C18: `ParseIdentity` loses no information: Raw is `s`, and `s` is Host
when it holds no `@`, User `@` Host when the text before the first `@` holds
no `!`, and Nick `!` User `@` Host otherwise; a non-empty Nick means that `s`
holds an `@` with a `!` before the first one. -/
theorem ParseIdentity_lossless (s : Str) :
    (ParseIdentity s).Raw = s ∧
    ('@' ∉ s → s = (ParseIdentity s).Host) ∧
    ('@' ∈ s → '!' ∉ s.takeWhile (fun c => c != '@') →
      s = (ParseIdentity s).User ++ '@' :: (ParseIdentity s).Host) ∧
    ('@' ∈ s → '!' ∈ s.takeWhile (fun c => c != '@') →
      s = (ParseIdentity s).Nick ++ '!' :: (ParseIdentity s).User ++
        '@' :: (ParseIdentity s).Host) ∧
    ((ParseIdentity s).Nick ≠ [] → '@' ∈ s ∧ '!' ∈ s.takeWhile (fun c => c != '@')) := by
  rcases ParseIdentity_cases s with ⟨hat, hid⟩ | ⟨u, h, hs, hu, hb, hid⟩ |
    ⟨n, w, h, hs, hu, hn, hid⟩
  · rw [hid]
    exact ⟨rfl, fun _ => rfl, fun h => absurd h hat, fun h => absurd h hat,
      fun h => absurd rfl h⟩
  · have htw : s.takeWhile (fun c => c != '@') = u := by
      rw [hs]; exact takeWhile_ne_append_cons h hu
    rw [hid, htw]
    refine ⟨rfl, ?_, fun _ _ => hs, fun _ h2 => absurd h2 hb, fun h2 => absurd rfl h2⟩
    intro hno
    exact absurd (by rw [hs]; simp) hno
  · have htw : s.takeWhile (fun c => c != '@') = n ++ '!' :: w := by
      rw [hs]; exact takeWhile_ne_append_cons h hu
    have hbang : '!' ∈ n ++ '!' :: w := by simp
    have hat : '@' ∈ s := by rw [hs]; simp
    rw [hid, htw]
    exact ⟨rfl, fun hno => absurd hat hno, fun _ h2 => absurd hbang h2, fun _ _ => hs,
      fun _ => ⟨hat, hbang⟩⟩

/-- Witness of C18 at `"nick!user@host"`. -/
theorem ParseIdentity_lossless_witness :
    "nick!user@host".toList =
      (ParseIdentity "nick!user@host".toList).Nick ++
        '!' :: (ParseIdentity "nick!user@host".toList).User ++
        '@' :: (ParseIdentity "nick!user@host".toList).Host :=
  (ParseIdentity_lossless "nick!user@host".toList).2.2.2.1 (by decide) (by decide)

/-- C19: the Nick holds neither `!` nor `@`, the User holds no `@`, and the
Host is a suffix of `s`. -/
theorem ParseIdentity_fields (s : Str) :
    '!' ∉ (ParseIdentity s).Nick ∧ '@' ∉ (ParseIdentity s).Nick ∧
    '@' ∉ (ParseIdentity s).User ∧ (ParseIdentity s).Host <:+ s := by
  rcases ParseIdentity_cases s with ⟨hat, hid⟩ | ⟨u, h, hs, hu, hb, hid⟩ |
    ⟨n, w, h, hs, hu, hn, hid⟩
  · rw [hid]
    exact ⟨by simp, by simp, by simp, List.suffix_refl s⟩
  · rw [hid]
    refine ⟨by simp, by simp, hu, ?_⟩
    exact ⟨u ++ ['@'], by rw [hs]; simp⟩
  · rw [hid]
    refine ⟨hn, fun hm => hu (by simp [hm]), fun hm => hu (by simp [hm]), ?_⟩
    exact ⟨n ++ '!' :: w ++ ['@'], by rw [hs]; simp⟩

/-! ## C15: white space around the line -/

theorem rdropWhile_append_of_pos {p : Char → Bool} (l : Str) {w : Str}
    (h : ∀ c ∈ w, p c = true) : (l ++ w).rdropWhile p = l.rdropWhile p := by
  induction w using List.reverseRecOn with
  | nil => simp
  | append_singleton w x ih =>
    have hx : p x = true := h x (by simp)
    have hw : ∀ c ∈ w, p c = true := fun c hc => h c (by simp [hc])
    rw [← List.append_assoc, List.rdropWhile_concat_pos _ _ _ hx, ih hw]

theorem TrimSpace_pad (s : Str) {w1 w2 : Str} (h1 : ∀ c ∈ w1, isSpace c = true)
    (h2 : ∀ c ∈ w2, isSpace c = true) :
    TrimSpace (w1 ++ s ++ w2) = TrimSpace s := by
  simp only [TrimSpace]
  rw [List.append_assoc, List.dropWhile_append_of_pos h1, List.dropWhile_append]
  by_cases hs : (s.dropWhile isSpace).isEmpty = true
  · have hs2 : s.dropWhile isSpace = [] := List.isEmpty_iff.mp hs
    have hw : w2.dropWhile isSpace = [] := List.dropWhile_eq_nil_iff.mpr h2
    rw [if_pos hs, hs2, hw]
  · rw [if_neg hs]
    exact rdropWhile_append_of_pos _ h2

theorem ParseEvent_congr {a b : Str} (h : TrimSpace a = TrimSpace b) :
    ParseEvent a = ParseEvent b := by
  simp only [ParseEvent, h]

/-- The Raw field of a parsed event is the trimmed line. -/
theorem ParseEvent_raw {line : Str} {e : Event} (h : ParseEvent line = some e) :
    e.Raw = TrimSpace line := by
  rcases ParseEvent_cases line with ⟨hnone, -⟩ |
    ⟨pfx, rest, toks, last, cmd, args, -, -, -, -, -, -, hsome⟩
  · rw [hnone] at h; cases h
  · rw [hsome] at h
    cases h
    rfl

/-- C15: white space in front of and behind a line changes nothing:
`ParseEvent (w1 ++ s ++ w2)` and `ParseEvent s` fail together or return the
same event, whose Raw is the trimmed line; `"JOIN #a "` gives Args
`["#a"]`. -/
theorem ParseEvent_pad (s w1 w2 : Str) (h1 : ∀ c ∈ w1, isSpace c = true)
    (h2 : ∀ c ∈ w2, isSpace c = true) :
    ParseEvent (w1 ++ s ++ w2) = ParseEvent s ∧
    (∀ e, ParseEvent (w1 ++ s ++ w2) = some e → e.Raw = TrimSpace s) ∧
    (ParseEvent "JOIN #a ".toList).map (fun e => e.Args) = some ["#a".toList] := by
  have ht := TrimSpace_pad s h1 h2
  refine ⟨ParseEvent_congr ht, ?_, by decide⟩
  intro e he
  rw [ParseEvent_raw he, ht]

/-- Witness of C15 at `"  JOIN #a \t"`. -/
theorem ParseEvent_pad_witness :
    ParseEvent "  JOIN #a \t".toList = ParseEvent "JOIN #a".toList :=
  (ParseEvent_pad "JOIN #a".toList "  ".toList " \t".toList (by decide) (by decide)).1

/-! ## C17: the prefix of a parsed line -/

/-- C17: on a successful parse, when the trimmed line starts with `:` the
Prefix is the text between that `:` and the first space character of the
trimmed line, and holds no space; otherwise the Prefix is empty. -/
theorem ParseEvent_prefix_text (line : Str) (e : Event) (h : ParseEvent line = some e) :
    ((TrimSpace line).head? = some ':' →
      ' ' ∉ e.Prefix ∧ ∃ rest, TrimSpace line = ':' :: (e.Prefix ++ ' ' :: rest)) ∧
    ((TrimSpace line).head? ≠ some ':' → e.Prefix = []) := by
  rcases ParseEvent_cases line with ⟨hnone, -⟩ |
    ⟨pfx, rest, toks, last, cmd, args, hT, -, -, -, -, -, hsome⟩
  · rw [hnone] at h; cases h
  · rw [hsome] at h
    cases h
    rcases hT with ⟨hT, hpfx⟩ | ⟨hT, hpfx, hhead⟩
    · refine ⟨fun _ => ⟨hpfx, rest, hT⟩, ?_⟩
      intro hno
      exact absurd (by rw [hT]; rfl) hno
    · refine ⟨?_, fun _ => hpfx⟩
      intro hyes
      exact absurd (hT ▸ hyes) hhead

/-- Witness of C17 at `":nick!user@host PRIVMSG #chan :hello there"`. -/
theorem ParseEvent_prefix_text_witness :
    ∃ e, ParseEvent ":nick!user@host PRIVMSG #chan :hello there".toList = some e ∧
      ' ' ∉ e.Prefix ∧
      ∃ rest, TrimSpace ":nick!user@host PRIVMSG #chan :hello there".toList
        = ':' :: (e.Prefix ++ ' ' :: rest) :=
  ⟨_, rfl, (ParseEvent_prefix_text ":nick!user@host PRIVMSG #chan :hello there".toList _ rfl).1
    (by decide)⟩

/-! ## C20: tokens of a parsed line -/

/-- C20: on a successful parse every entry of Args other than the last holds
no space character and does not begin with `:`, and when Args is non-empty the
same is true of the Command. -/
theorem ParseEvent_tokens (line : Str) (e : Event) (h : ParseEvent line = some e) :
    (∀ a ∈ e.Args.dropLast, ' ' ∉ a ∧ a.head? ≠ some ':') ∧
    (e.Args ≠ [] → ' ' ∉ e.Command ∧ e.Command.head? ≠ some ':') := by
  refine ⟨fun a ha => ParseEvent_middle_isTok h a ha, ?_⟩
  rcases ParseEvent_cases line with ⟨hnone, -⟩ |
    ⟨pfx, rest, toks, last, cmd, args, -, -, -, htoks, -, hcons, hsome⟩
  · rw [hnone] at h; cases h
  · rw [hsome] at h
    cases h
    intro hargs
    rcases pieces_tail hcons with ⟨-, -, h3⟩ | ⟨mid, h1, -⟩
    · exact absurd h3 hargs
    · exact htoks cmd (by rw [h1]; simp)

/-- Witness of C20 at `"JOIN #a #b #c"`. -/
theorem ParseEvent_tokens_witness :
    ∃ e, ParseEvent "JOIN #a #b #c".toList = some e ∧
      (∀ a ∈ e.Args.dropLast, ' ' ∉ a ∧ a.head? ≠ some ':') ∧
      ' ' ∉ e.Command ∧ e.Command.head? ≠ some ':' :=
  have h := ParseEvent_tokens "JOIN #a #b #c".toList _ rfl
  ⟨_, rfl, h.1, h.2 (by decide)⟩

/-! ## C11: a copy shares no storage with its original -/

theorem getD_set_of_ne {arrays : List (List Str)} {a b : Nat} (v : List Str) (h : b ≠ a) :
    (arrays.set b v).getD a [] = arrays.getD a [] := by
  simp [List.getD_eq_getElem?_getD, List.getElem?_set_ne h]

theorem getD_append_of_lt {arrays : List (List Str)} {a : Nat} (v : List (List Str))
    (h : a < arrays.length) : (arrays ++ v).getD a [] = arrays.getD a [] := by
  simp [List.getD_eq_getElem?_getD, List.getElem?_append_left h]

/-- Appending to the slice `s` leaves the elements of every slice on another
allocated array as they are. -/
theorem Store.append_frame (st : Store) (s t : Slice) (xs : List Str) (spare : Nat)
    (ht : ∀ a, t.arr = some a → a < st.arrays.length ∧ s.arr ≠ some a) :
    (st.append s xs spare).1.elems t = st.elems t := by
  cases hta : t.arr with
  | none => simp [Store.elems, hta]
  | some a =>
    obtain ⟨hlt, hne⟩ := ht a hta
    simp only [Store.append]
    split
    · cases hsa : s.arr with
      | none => rfl
      | some b =>
        have hba : b ≠ a := fun e => hne (by rw [hsa, e])
        simp only [Store.elems, hta, getD_set_of_ne _ hba]
    · simp only [Store.elems, hta, getD_append_of_lt _ hlt]

/-- Storing into an element of the slice `s` leaves the elements of every
slice on another array as they are. -/
theorem Store.setElem_frame (st st2 : Store) (s t : Slice) (i : Nat) (x : Str)
    (hset : st.setElem s i x = some st2) (ht : ∀ a, t.arr = some a → s.arr ≠ some a) :
    st2.elems t = st.elems t := by
  cases hta : t.arr with
  | none => simp [Store.elems, hta]
  | some a =>
    have hne := ht a hta
    simp only [Store.setElem] at hset
    split at hset
    · cases hsa : s.arr with
      | none => rw [hsa] at hset; cases hset
      | some b =>
        rw [hsa] at hset
        have hba : b ≠ a := fun e => hne (by rw [hsa, e])
        cases hset
        simp only [Store.elems, hta, getD_set_of_ne _ hba]
    · cases hset

theorem Store.length_elems_le (st : Store) (s : Slice) : (st.elems s).length ≤ s.len := by
  cases h : s.arr with
  | none => simp [Store.elems, h]
  | some a =>
    simp only [Store.elems, h]
    exact List.length_take_le _ _

/-- What `Store.EventCopy` allocates: one array and one `Identity` instance,
both at the end of the store, and the copy refers to them. -/
theorem Store.EventCopy_fresh {st st1 : Store} {e c : EventObj} {spare : Nat}
    (hcopy : st.EventCopy e spare = some (st1, c)) :
    c.Args.arr = some st.arrays.length ∧ st1.arrays.length = st.arrays.length + 1 ∧
    c.Identity = some st.idents.length ∧ st1.idents.length = st.idents.length + 1 ∧
    ∃ p, e.Identity = some p ∧ p < st.idents.length := by
  simp only [Store.EventCopy, Store.IdentityCopy] at hcopy
  cases hid : e.Identity with
  | none => rw [hid] at hcopy; cases hcopy
  | some p =>
    rw [hid] at hcopy
    cases hget : st.idents[p]? with
    | none => simp [hget] at hcopy
    | some i =>
      have hp : p < st.idents.length := by
        by_contra hge
        rw [List.getElem?_eq_none (Nat.le_of_not_lt hge)] at hget
        cases hget
      have hin : ∀ st2 : Store, 0 + (st2.elems e.Args).length ≤ e.Args.len := by
        intro st2
        rw [Nat.zero_add]
        exact Store.length_elems_le st2 e.Args
      simp only [hget, Store.make, Store.append, hin, if_true, Option.some.injEq,
        Prod.mk.injEq] at hcopy
      obtain ⟨h1, h2⟩ := hcopy
      subst h2
      subst h1
      exact ⟨rfl, by simp, rfl, by simp, p, rfl, hp⟩

/-- The copy holds the elements of the original, in the same order. -/
theorem Store.EventCopy_elems {st st1 : Store} {e c : EventObj} {spare : Nat}
    (hargs : st.Holds e.Args) (hcopy : st.EventCopy e spare = some (st1, c)) :
    st1.elems c.Args = st.elems e.Args := by
  simp only [Store.EventCopy, Store.IdentityCopy] at hcopy
  cases hid : e.Identity with
  | none => rw [hid] at hcopy; cases hcopy
  | some p =>
    rw [hid] at hcopy
    cases hget : st.idents[p]? with
    | none => simp [hget] at hcopy
    | some i =>
      have hin : ∀ st2 : Store, 0 + (st2.elems e.Args).length ≤ e.Args.len := by
        intro st2
        rw [Nat.zero_add]
        exact Store.length_elems_le st2 e.Args
      have hsame : ∀ ids : List Irc.Identity,
          Store.elems ⟨st.arrays ++ [List.replicate e.Args.len []], ids⟩ e.Args
            = st.elems e.Args := by
        intro ids
        cases ha : e.Args.arr with
        | none => simp [Store.elems, ha]
        | some a => simp only [Store.elems, ha, getD_append_of_lt _ (hargs a ha)]
      simp only [hget, Store.make, Store.append, hin, if_true, Option.some.injEq,
        Prod.mk.injEq, hsame] at hcopy
      obtain ⟨h1, h2⟩ := hcopy
      subst h2
      subst h1
      simp [Store.elems, writeAt]

theorem Store.EventCopy_isSome (st : Store) (e : EventObj) (spare : Nat) {p : Nat}
    (hid : e.Identity = some p) (hp : p < st.idents.length) :
    ∃ st1 c, st.EventCopy e spare = some (st1, c) := by
  have hget : st.idents[p]? = some (st.idents[p]) := List.getElem?_eq_getElem hp
  simp only [Store.EventCopy, Store.IdentityCopy, hid, hget]
  exact ⟨_, _, rfl⟩

/-- C11: for an event `e` with a present Identity, `Copy` returns an event `c`
such that appending to `c.Args` or storing into an element of `c.Args` leaves
the elements of `e.Args` unchanged, appending to or storing into `e.Args`
leaves the elements of `c.Args` unchanged, and assigning to the instance behind
`c.Identity` leaves the instance behind `e.Identity` unchanged; `c` refers to
another backing array and another `Identity` instance than `e`. -/
theorem EventCopy_independent (st : Store) (e : EventObj) (spare p : Nat)
    (hid : e.Identity = some p) (hp : p < st.idents.length) (hargs : st.Holds e.Args) :
    ∃ st1 c, st.EventCopy e spare = some (st1, c) ∧
      (∀ xs k, (st1.append c.Args xs k).1.elems e.Args = st1.elems e.Args) ∧
      (∀ i x st2, st1.setElem c.Args i x = some st2 →
        st2.elems e.Args = st1.elems e.Args) ∧
      (∀ xs k, (st1.append e.Args xs k).1.elems c.Args = st1.elems c.Args) ∧
      (∀ i x st2, st1.setElem e.Args i x = some st2 →
        st2.elems c.Args = st1.elems c.Args) ∧
      (∀ v st2, st1.setIdentity c.Identity v = some st2 →
        st2.idents[p]? = st1.idents[p]?) ∧
      c.Args.arr ≠ e.Args.arr ∧ c.Identity ≠ e.Identity := by
  obtain ⟨st1, c, hcopy⟩ := Store.EventCopy_isSome st e spare hid hp
  obtain ⟨hcarr, hlen, hcid, -, -⟩ := Store.EventCopy_fresh hcopy
  have hne : ∀ a, e.Args.arr = some a → c.Args.arr ≠ some a := by
    intro a ha hc
    rw [hcarr] at hc
    cases hc
    exact absurd (hargs _ ha) (Nat.lt_irrefl _)
  refine ⟨st1, c, hcopy, ?_, ?_, ?_, ?_, ?_, ?_, ?_⟩
  · intro xs k
    apply Store.append_frame
    intro a ha
    exact ⟨by have := hargs a ha; omega, hne a ha⟩
  · intro i x st2 hset
    exact Store.setElem_frame st1 st2 c.Args e.Args i x hset hne
  · intro xs k
    apply Store.append_frame
    intro a ha
    rw [hcarr] at ha
    cases ha
    exact ⟨by omega, fun h => hne _ h hcarr⟩
  · intro i x st2 hset
    apply Store.setElem_frame st1 st2 e.Args c.Args i x hset
    intro a ha h
    exact hne a h ha
  · intro v st2 hset
    rw [hcid] at hset
    simp only [Store.setIdentity] at hset
    split at hset
    · cases hset
      exact List.getElem?_set_ne (Nat.ne_of_gt hp)
    · cases hset
  · intro h
    rw [hcarr] at h
    exact hne _ h.symm hcarr
  · rw [hcid, hid]
    intro h
    cases h
    exact Nat.lt_irrefl _ hp

/-- Witness of C11 at the event of
`":nick!user@host PRIVMSG #chan :hello there"`: after appending to the copy
the original still has its two arguments. -/
theorem EventCopy_independent_witness :
    ∃ st1 c, sampleStore.EventCopy sampleEvent 0 = some (st1, c) ∧
      (st1.append c.Args ["x".toList] 0).1.elems sampleEvent.Args
        = ["#chan".toList, "hello there".toList] ∧
      st1.elems c.Args = ["#chan".toList, "hello there".toList] ∧
      c.Args.arr ≠ sampleEvent.Args.arr := by
  obtain ⟨st1, c, hcopy, h1, -, -, -, -, h6, -⟩ :=
    EventCopy_independent sampleStore sampleEvent 0 0 rfl (by decide) (by decide)
  have h2 : sampleStore.EventCopy sampleEvent 0 = some
      (⟨[["PRIVMSG".toList, "#chan".toList, "hello there".toList],
          ["#chan".toList, "hello there".toList]],
        [ParseIdentity "nick!user@host".toList,
          (ParseIdentity "nick!user@host".toList).Copy]⟩,
       ⟨sampleEvent.Raw, some 1, sampleEvent.Prefix, sampleEvent.Command,
        ⟨some 1, 0, 2, 2⟩⟩) := by decide
  refine ⟨st1, c, hcopy, ?_, ?_, h6⟩
  · rw [h1]
    rw [h2] at hcopy
    simp only [Option.some.injEq, Prod.mk.injEq] at hcopy
    rw [← hcopy.1]
    decide
  · rw [h2] at hcopy
    simp only [Option.some.injEq, Prod.mk.injEq] at hcopy
    rw [← hcopy.1, ← hcopy.2]
    decide

end Irc
